import Mathlib

/-!
Verification of the Migration Runner in `scripts/setup_feature_store.py`
(class `FeatureStoreSetup`): the SQL statement splitter (comment stripping,
line-comment handling, semicolon boundary detection), the sequential
execution engine with per-statement failure isolation, and the post-setup
verifier.  Strings are modelled as `List Char`; the remote database client
is modelled as an oracle giving each statement's outcome.
-/

/-- Whitespace characters stripped by Python's `str.strip()` (ASCII subset). -/
def isSpc (c : Char) : Bool :=
  c = ' ' || c = '\t' || c = '\n' || c = '\r' || c = '\x0b' || c = '\x0c'

/-- Python `str.lstrip()`. -/
def trimL (l : List Char) : List Char := l.dropWhile isSpc

/-- Python `str.rstrip()`. -/
def trimR (l : List Char) : List Char := (l.reverse.dropWhile isSpc).reverse

/-- Python `str.strip()`. -/
def trim (l : List Char) : List Char := trimR (trimL l)

/-- Python `str.upper()` on one ASCII character. -/
def upperChar (c : Char) : Char :=
  if 'a' ≤ c ∧ c ≤ 'z' then Char.ofNat (c.toNat - 32) else c

/-- Python `str.upper()`. -/
def upper (l : List Char) : List Char := l.map upperChar

/-- `isPref p l` holds when `p` is an initial segment of `l`
(Python `str.startswith`). -/
def isPref : List Char → List Char → Bool
  | [], _ => true
  | _ :: _, [] => false
  | a :: as, b :: bs => a = b && isPref as bs

/-- Index of the first occurrence of substring `p` in `l`
(Python `str.find`, `none` instead of `-1`). -/
def findSub? (p : List Char) : List Char → Option Nat
  | [] => if isPref p [] then some 0 else none
  | c :: t => if isPref p (c :: t) then some 0 else (findSub? p t).map (· + 1)

/-- Python's `p in l` substring test. -/
def containsSub (p l : List Char) : Bool := (findSub? p l).isSome

/-- Python `stmt.endswith(";")`. -/
def endsSemi (l : List Char) : Bool :=
  match l.getLast? with
  | some c => c = ';'
  | none => false

/-- Python `stmt.rstrip(";")`: remove all trailing semicolons. -/
def dropSemis (l : List Char) : List Char :=
  (l.reverse.dropWhile (fun c => c = ';')).reverse

/-- Python `" ".join`. -/
def joinSp : List (List Char) → List Char
  | [] => []
  | [l] => l
  | l :: l' :: ls => l ++ ' ' :: joinSp (l' :: ls)

/-- Python `sql_content.split("\n")`. -/
def splitNL : List Char → List (List Char)
  | [] => [[]]
  | c :: t =>
    if c = '\n' then [] :: splitNL t
    else
      match splitNL t with
      | [] => [[c]]
      | p :: ps => (c :: p) :: ps

/-- Source lines 55-64: per-line update of `line` and `in_block_comment`
before the `if in_block_comment` test — a same-line `/* ... */` is excised,
an unmatched `/*` truncates the line and opens a block comment. -/
def blockStep (inBC : Bool) (l : List Char) : List Char × Bool :=
  if containsSub "/*".data l then
    if containsSub "*/".data l then
      match findSub? "/*".data l, findSub? "*/".data l with
      | some s, some e => (l.take s ++ l.drop (e + 2), inBC)
      | _, _ => (l, inBC)
    else
      match findSub? "/*".data l with
      | some s => (l.take s, true)
      | none => (l, inBC)
  else (l, inBC)

/-- First phase of `split_sql_statements` (source lines 52-75): the block
comment stripper.  The Boolean argument is the `in_block_comment` flag; each
input line is transformed and appended, or skipped entirely while inside a
block comment. -/
def stripBlockLines : Bool → List (List Char) → List (List Char)
  | _, [] => []
  | inBC, l :: ls =>
    let step := blockStep inBC l
    if step.2 then
      match findSub? "*/".data step.1 with
      | some e => (step.1.drop (e + 2)) :: stripBlockLines false ls
      | none => stripBlockLines true ls
    else step.1 :: stripBlockLines false ls

/-- Inline `--` comment removal (source lines 80-85): the marker is dropped
only when the characters before it contain an even number of single quotes. -/
def stripLineComment (l : List Char) : List Char :=
  match findSub? "--".data l with
  | none => l
  | some q => if (l.take q).count '\'' % 2 = 0 then l.take q else l

/-- One line of the splitter's second loop: comment removal plus `strip`. -/
def cleanLine (l : List Char) : List Char := trim (stripLineComment l)

/-- The cleaned, non-blank lines of the splitter's second loop. -/
def cleanLines (ls : List (List Char)) : List (List Char) :=
  (ls.map cleanLine).filter (fun s => !s.isEmpty)

/-- End-of-input handling of the splitter (source lines 107-110): a leftover
buffer is emitted when its joined text is non-empty and lacks a trailing
semicolon. -/
def finishStmt (buf : List (List Char)) : List (List Char) :=
  match buf with
  | [] => []
  | _ :: _ =>
    let st := trim (joinSp buf)
    if !st.isEmpty && !endsSemi st then [st] else []

/-- Second phase of `split_sql_statements` (source lines 78-110): accumulate
cleaned lines into a buffer and close a statement at every line that ends
with a semicolon. -/
def splitLoop : List (List Char) → List (List Char) → List (List Char)
  | [], buf => finishStmt buf
  | l :: ls, buf =>
    let s := cleanLine l
    if s.isEmpty then splitLoop ls buf
    else if endsSemi s then
      let st := trim (dropSemis (joinSp (buf ++ [s])))
      if st.isEmpty then splitLoop ls [] else st :: splitLoop ls []
    else splitLoop ls (buf ++ [s])

/-- `FeatureStoreSetup.split_sql_statements` (source lines 42-112). -/
def split_sql_statements (content : List Char) : List (List Char) :=
  splitLoop (stripBlockLines false (splitNL content)) []

/-! ## Execution engine (`FeatureStoreSetup.execute_setup`, source lines 114-262) -/

/-- Outcome of one client call: `execute_query`/`execute_update` either
return normally or raise with a message. -/
inductive ExecResult where
  | ok (rows : Nat) : ExecResult
  | err (msg : List Char) : ExecResult
deriving DecidableEq

/-- The remote database client, as an oracle: the outcome of
`execute_query` (`q`) and `execute_update` (`u`) for the statement with a
given 1-based number. -/
structure Client where
  q : Nat → ExecResult
  u : Nat → ExecResult

/-- Source line 185: a statement is "display-only" when its stripped
uppercase text starts with `SELECT` and its uppercase text contains
`LIMIT`. -/
def isDisplayOnly (s : List Char) : Bool :=
  isPref "SELECT".data (upper (trim s)) && containsSub "LIMIT".data (upper s)

/-- The statement classifier (source lines 206-208): `SELECT`/`SHOW` go to
`execute_query`, everything else to `execute_update`. -/
inductive StmtClass where
  | query : StmtClass
  | update : StmtClass
deriving DecidableEq

/-- Source line 208: classification by the leading keyword of the stripped
uppercased statement. -/
def classify (s : List Char) : StmtClass :=
  let u := upper (trim s)
  if isPref "SELECT".data u || isPref "SHOW".data u then .query else .update

/-- Which client call the engine makes for statement number `i` with text
`s` (source lines 208-220). -/
def outcomeOf (c : Client) (i : Nat) (s : List Char) : ExecResult :=
  match classify s with
  | .query => c.q i
  | .update => c.u i

/-- Source lines 198-200: the truncated preview of a statement. -/
def preview (s : List Char) : List Char :=
  (s.take 60).map (fun c => if c = '\n' then ' ' else c) ++
    (if 60 < s.length then "...".data else [])

/-- One entry of `results["errors"]` (source lines 229-233). -/
structure ErrEntry where
  statement_number : Nat
  statement : List Char
  error : List Char
deriving DecidableEq

/-- The `results` dictionary returned by `execute_setup`
(source lines 176-181). -/
structure RunReport where
  total_statements : Nat
  successful : Nat
  failed : Nat
  errors : List ErrEntry
deriving DecidableEq

/-- Engine state: the report plus a ghost trace of the statements sent to
the client (every loop iteration performs exactly one client call, also for
display-only statements, source lines 183-235). -/
structure EngineState where
  report : RunReport
  calls : List (Nat × List Char)
deriving DecidableEq

/-- One iteration of the engine loop (source lines 183-235): display-only
statements are executed with any failure absorbed; for the rest, a normal
return increments `successful` and an exception increments `failed` and
appends an error entry, after which the loop continues. -/
def runStep (c : Client) (i : Nat) (s : List Char) (st : EngineState) : EngineState :=
  if isDisplayOnly s then
    { st with calls := st.calls ++ [(i, s)] }
  else
    match outcomeOf c i s with
    | .ok _ =>
      { report := { st.report with successful := st.report.successful + 1 },
        calls := st.calls ++ [(i, s)] }
    | .err m =>
      { report := { st.report with
          failed := st.report.failed + 1,
          errors := st.report.errors ++ [⟨i, preview s, m⟩] },
        calls := st.calls ++ [(i, s)] }

/-- The engine loop over the statement list, `i` being the 1-based number of
the next statement (Python `enumerate(statements, 1)`). -/
def runLoop (c : Client) : List (List Char) → Nat → EngineState → EngineState
  | [], _, st => st
  | s :: ss, i, st => runLoop c ss (i + 1) (runStep c i s st)

/-- The statement-execution phase of `execute_setup` with its ghost call
trace. -/
def execute_setup_core (c : Client) (stmts : List (List Char)) : EngineState :=
  runLoop c stmts 1 ⟨⟨stmts.length, 0, 0, []⟩, []⟩

/-- The report returned by the statement-execution phase of
`execute_setup` (source lines 176-262). -/
def execute_setup (c : Client) (stmts : List (List Char)) : RunReport :=
  (execute_setup_core c stmts).report

/-! Spec-side closed forms for the engine's tallies. -/

/-- Spec-side count of successes: non-display statements whose client call
returns normally. -/
def specSucc (c : Client) : List (List Char) → Nat → Nat
  | [], _ => 0
  | s :: ss, i =>
    (match isDisplayOnly s, outcomeOf c i s with
     | false, .ok _ => 1
     | _, _ => 0) + specSucc c ss (i + 1)

/-- Spec-side count of failures: non-display statements whose client call
raises. -/
def specFail (c : Client) : List (List Char) → Nat → Nat
  | [], _ => 0
  | s :: ss, i =>
    (match isDisplayOnly s, outcomeOf c i s with
     | false, .err _ => 1
     | _, _ => 0) + specFail c ss (i + 1)

/-- Spec-side error list: one entry per failing non-display statement, in
source order, carrying the 1-based number, the truncated preview and the raw
message. -/
def specErrors (c : Client) : List (List Char) → Nat → List ErrEntry
  | [], _ => []
  | s :: ss, i =>
    (match isDisplayOnly s, outcomeOf c i s with
     | false, .err m => [⟨i, preview s, m⟩]
     | _, _ => []) ++ specErrors c ss (i + 1)

/-- Spec-side call trace: every statement is sent to the client exactly
once, in order, with its 1-based number. -/
def callsSpec : List (List Char) → Nat → List (Nat × List Char)
  | [], _ => []
  | s :: ss, i => (i, s) :: callsSpec ss (i + 1)

/-! ## Whole-run sequencing (`execute_setup` steps 1-5 and `main`) -/

/-- Environment of a whole run: whether `connect()` succeeds, whether the
script file exists, its content, and the client oracle. -/
structure SetupEnv where
  connectOk : Bool
  scriptExists : Bool
  script : List Char
  client : Client

/-- Observable events of a run, in order. -/
inductive Ev where
  | connect : Ev
  | readScript : Ev
  | exec (i : Nat) : Ev
  | close : Ev
deriving DecidableEq

/-- The failures that abort a run. -/
inductive RunError where
  | connectFailed : RunError
  | scriptNotFound : RunError
deriving DecidableEq

/-- `execute_setup` end to end with `drop_existing=False` (source lines
124-262): step 1 connects (raising if it fails), step 2 reads the SQL file
(`read_sql_file` raises `FileNotFoundError` when the path does not resolve,
after which the connection is closed and the error propagates), step 3
splits, step 5 executes every statement; on success the connection is left
open for verification. -/
def execute_setup_full (env : SetupEnv) : Except RunError RunReport × List Ev :=
  if env.connectOk = false then
    (.error .connectFailed, [.connect])
  else if env.scriptExists = false then
    (.error .scriptNotFound, [.connect, .readScript, .close])
  else
    let stmts := split_sql_statements env.script
    let st := execute_setup_core env.client stmts
    (.ok st.report, .connect :: .readScript :: st.calls.map (fun p => Ev.exec p.1))

/-! ## Verifier (`FeatureStoreSetup.verify_setup`, source lines 264-358) -/

/-- The client as seen by the verifier: each catalog listing returns the
`name` column of its result frame (a missing `name` column behaves as an
empty list) or raises; each `SELECT COUNT(*)` returns the `CNT` column or
raises. -/
structure VerifyClient where
  showDatabases : Except (List Char) (List (List Char))
  showSchemas : Except (List Char) (List (List Char))
  showTables : Except (List Char) (List (List Char))
  showViews : Except (List Char) (List (List Char))
  countOf : List Char → Except (List Char) (List Nat)

/-- The `verification` dictionary (source lines 280-286); the `tables`,
`views` and `data_counts` dictionaries are ordered association lists. -/
structure Verification where
  database_exists : Bool
  schema_exists : Bool
  tables : List (List Char × Bool)
  views : List (List Char × Bool)
  data_counts : List (List Char × Nat)
deriving DecidableEq

/-- Source line 310. -/
def tablesToCheck : List (List Char) :=
  ["customer_transactions".data, "tx_cleaned".data, "feature_store".data]

/-- Source line 331. -/
def viewsToCheck : List (List Char) :=
  ["customer_agg_30d".data, "latest_features".data]

/-- The table-checking loop (source lines 315-326): existence is recorded
first; a raising count query aborts the remaining iterations of this loop
(the exception is caught by the category's `except`). -/
def tableLoop (countOf : List Char → Except (List Char) (List Nat))
    (existing : List (List Char)) :
    List (List Char) → List (List Char × Bool) → List (List Char × Nat) →
    List (List Char × Bool) × List (List Char × Nat)
  | [], tAcc, cAcc => (tAcc, cAcc)
  | n :: ns, tAcc, cAcc =>
    let ex := existing.contains (upper n)
    if ex then
      match countOf n with
      | .error _ => (tAcc ++ [(n, ex)], cAcc)
      | .ok cs => tableLoop countOf existing ns (tAcc ++ [(n, ex)]) (cAcc ++ [(n, cs.headD 0)])
    else tableLoop countOf existing ns (tAcc ++ [(n, ex)]) cAcc

/-- The view-checking loop (source lines 336-347), a verbatim copy of the
table loop in the source. -/
def viewLoop (countOf : List Char → Except (List Char) (List Nat))
    (existing : List (List Char)) :
    List (List Char) → List (List Char × Bool) → List (List Char × Nat) →
    List (List Char × Bool) × List (List Char × Nat)
  | [], tAcc, cAcc => (tAcc, cAcc)
  | n :: ns, tAcc, cAcc =>
    let ex := existing.contains (upper n)
    if ex then
      match countOf n with
      | .error _ => (tAcc ++ [(n, ex)], cAcc)
      | .ok cs => viewLoop countOf existing ns (tAcc ++ [(n, ex)]) (cAcc ++ [(n, cs.headD 0)])
    else viewLoop countOf existing ns (tAcc ++ [(n, ex)]) cAcc

/-- `FeatureStoreSetup.verify_setup` (source lines 288-349): four
independently guarded check blocks; a failing catalog listing leaves its
category unset, and `data_counts` receives table entries then view
entries. -/
def verify_setup (c : VerifyClient) : Verification :=
  let dbE :=
    match c.showDatabases with
    | .error _ => false
    | .ok ns => ns.contains "FEAT_DB".data
  let scE :=
    match c.showSchemas with
    | .error _ => false
    | .ok ns => ns.contains "FEAT_SCHEMA".data
  let tp :=
    match c.showTables with
    | .error _ => ([], [])
    | .ok lst => tableLoop c.countOf (lst.map upper) tablesToCheck [] []
  let vp :=
    match c.showViews with
    | .error _ => ([], [])
    | .ok lst => viewLoop c.countOf (lst.map upper) viewsToCheck [] []
  ⟨dbE, scE, tp.1, vp.1, tp.2 ++ vp.2⟩

/-! ## Spec-side splitter (written from the spec's words, for comparison)

The spec describes the splitter as: accumulate cleaned lines, close a
statement exactly at each line whose trimmed text ends with a semicolon,
join the buffered lines with single spaces, strip the trailing
semicolon(s), keep the result when non-empty, and emit any leftover buffer
at end of script.  `chunks` realises the boundary rule as a grouping of the
cleaned lines; `splitSpecLines` is the whole contract. -/

/-- Group a list of lines into maximal runs, closing a run immediately
after every line that ends with a semicolon; a trailing run with no
semicolon line is kept. -/
def chunks : List (List Char) → List (List (List Char))
  | [] => []
  | l :: ls =>
    if endsSemi l then [l] :: chunks ls
    else
      match chunks ls with
      | [] => [[l]]
      | c :: cs => (l :: c) :: cs

/-- Chunk grouping with an initial, already-buffered run; used to relate
the code's buffer-passing loop to `chunks`. -/
def chunksFrom (buf : List (List Char)) : List (List Char) → List (List (List Char))
  | [] => if buf.isEmpty then [] else [buf]
  | l :: ls =>
    if endsSemi l then (buf ++ [l]) :: chunksFrom [] ls
    else chunksFrom (buf ++ [l]) ls

/-- `prependFirst buf cs` glues an initial buffer onto the first chunk. -/
def prependFirst (buf : List (List Char)) : List (List (List Char)) → List (List (List Char))
  | [] => if buf.isEmpty then [] else [buf]
  | c :: cs => (buf ++ c) :: cs

/-- The statement a chunk denotes: lines joined with single spaces,
trailing semicolons stripped, then trimmed. -/
def specStmtOfChunk (c : List (List Char)) : List Char :=
  trim (dropSemis (joinSp c))

/-- The splitter contract of spec section 4.2, over the stripped lines. -/
def splitSpecLines (ls : List (List Char)) : List (List Char) :=
  ((chunks (cleanLines ls)).map specStmtOfChunk).filter (fun s => !s.isEmpty)

/-- The splitter's second loop restricted to already cleaned, non-blank
lines; stepping stone between `splitLoop` and `chunks`. -/
def splitLoop2 : List (List Char) → List (List Char) → List (List Char)
  | [], buf => finishStmt buf
  | s :: ls, buf =>
    if endsSemi s then
      let st := trim (dropSemis (joinSp (buf ++ [s])))
      if st.isEmpty then splitLoop2 ls [] else st :: splitLoop2 ls []
    else splitLoop2 ls (buf ++ [s])

/-- Invariant of every line the splitter buffers: already trimmed,
non-blank, and not semicolon-terminated. -/
def GoodElem (s : List Char) : Prop :=
  trim s = s ∧ s ≠ [] ∧ endsSemi s = false

/-! ## Spec-side verifier category check (for comparison with the code) -/

/-- Existence check of a catalog listing: `false` on a raised listing, else
membership of the expected name in the returned `name` column. -/
def catalogHas (showRes : Except (List Char) (List (List Char))) (key : List Char) : Bool :=
  match showRes with
  | .error _ => false
  | .ok ns => ns.contains key

/-- Spec-side per-category check over a manifest of names: each name is
recorded with its existence; an existing object's raising count query stops
the category, keeping the entries recorded so far. -/
def checkCategory (countOf : List Char → Except (List Char) (List Nat))
    (existing : List (List Char)) :
    List (List Char) → List (List Char × Bool) × List (List Char × Nat)
  | [] => ([], [])
  | n :: ns =>
    let ex := existing.contains (upper n)
    if ex then
      match countOf n with
      | .error _ => ([(n, ex)], [])
      | .ok cs =>
        let r := checkCategory countOf existing ns
        ((n, ex) :: r.1, (n, cs.headD 0) :: r.2)
    else
      let r := checkCategory countOf existing ns
      ((n, ex) :: r.1, r.2)

/-- A category's result: empty maps when the catalog listing raises, else
the manifest walk against the uppercased listed names. -/
def categoryResult (showRes : Except (List Char) (List (List Char)))
    (countOf : List Char → Except (List Char) (List Nat))
    (names : List (List Char)) :
    List (List Char × Bool) × List (List Char × Nat) :=
  match showRes with
  | .error _ => ([], [])
  | .ok lst => checkCategory countOf (lst.map upper) names

/-- A line that, encountered while inside a block comment, does not close
it (source lines 54-73): either it contains no `*/` at all (with or
without a further `/*`, whose truncation cannot introduce one), or it
contains both markers and the same-line excision of its first
`/* ... */` pair (source lines 58-60) leaves no `*/` behind.  A `*/`
with no `/*` on the line always closes the comment. -/
def whollyCommented (m : List Char) : Bool :=
  match findSub? "/*".data m, findSub? "*/".data m with
  | _, none => true
  | none, some _ => false
  | some f1, some f2 => !containsSub "*/".data (m.take f1 ++ m.drop (f2 + 2))

/-! ## Basic facts about trimming and joining -/

theorem dropWhile_fix_head {p : Char → Bool} {l : List Char} {c : Char}
    (hfix : l.dropWhile p = l) (hc : l.head? = some c) : p c = false := by
  cases l with
  | nil => simp at hc
  | cons a t =>
    simp only [List.head?_cons, Option.some.injEq] at hc
    subst hc
    by_contra hp
    rw [List.dropWhile_cons_of_pos (by simpa using hp)] at hfix
    have := congrArg List.length hfix
    have hle := (List.dropWhile_suffix (l := t) p).length_le
    simp at this
    omega

theorem dropWhile_eq_self_of_head {p : Char → Bool} {l : List Char}
    (h : ∀ c, l.head? = some c → p c = false) : l.dropWhile p = l := by
  cases l with
  | nil => rfl
  | cons a t => rw [List.dropWhile_cons_of_neg (by simp [h a rfl])]

theorem trimR_pref (l : List Char) : trimR l <+: l := by
  obtain ⟨t, ht⟩ := (List.dropWhile_suffix (l := l.reverse) isSpc)
  refine ⟨t.reverse, ?_⟩
  have := congrArg List.reverse ht
  simpa [trimR] using this

theorem head?_of_pref {x y : List Char} (h : x <+: y) (hx : x ≠ []) :
    y.head? = x.head? := by
  obtain ⟨t, rfl⟩ := h
  cases x with
  | nil => exact absurd rfl hx
  | cons a s => simp

theorem trim_trimL_fix {l : List Char} (h : trim l = l) : trimL l = l := by
  have h1 : (trimL l).length ≤ l.length := (List.dropWhile_suffix isSpc).length_le
  have h2 : (trim l).length ≤ (trimL l).length := (trimR_pref (trimL l)).length_le
  rw [h] at h2
  exact (List.dropWhile_suffix isSpc).eq_of_length
    (by simp only [trimL] at h1 h2 ⊢; omega)

theorem trim_trimR_fix {l : List Char} (h : trim l = l) : trimR l = l := by
  have := trim_trimL_fix h
  calc trimR l = trimR (trimL l) := by rw [this]
    _ = l := h

theorem trim_fix_head {l : List Char} {c : Char} (h : trim l = l)
    (hc : l.head? = some c) : isSpc c = false :=
  dropWhile_fix_head (trim_trimL_fix h) hc

theorem trim_fix_getLast {l : List Char} {c : Char} (h : trim l = l)
    (hc : l.getLast? = some c) : isSpc c = false := by
  have h2 : l.reverse.dropWhile isSpc = l.reverse := by
    have := congrArg List.reverse (trim_trimR_fix h)
    simpa [trimR] using this
  exact dropWhile_fix_head h2 (by simpa using hc)

theorem trimL_eq_self_of_head {l : List Char} {c : Char}
    (hc : l.head? = some c) (hs : isSpc c = false) : trimL l = l := by
  apply dropWhile_eq_self_of_head
  intro d hd
  rw [hc] at hd
  cases hd
  exact hs

theorem trimR_eq_self_of_getLast {l : List Char} {c : Char}
    (hc : l.getLast? = some c) (hs : isSpc c = false) : trimR l = l := by
  unfold trimR
  rw [dropWhile_eq_self_of_head, List.reverse_reverse]
  intro d hd
  rw [List.head?_reverse, hc] at hd
  cases hd
  exact hs

theorem trim_eq_self_of_ends {l : List Char} {c d : Char}
    (h1 : l.head? = some c) (hs1 : isSpc c = false)
    (h2 : l.getLast? = some d) (hs2 : isSpc d = false) : trim l = l := by
  unfold trim
  rw [trimL_eq_self_of_head h1 hs1, trimR_eq_self_of_getLast h2 hs2]

theorem trim_nil : trim [] = [] := rfl

theorem trim_idem (l : List Char) : trim (trim l) = trim l := by
  by_cases hne : trim l = []
  · rw [hne]
    exact trim_nil
  · have hpre : trim l <+: trimL l := trimR_pref (trimL l)
    have hhead : (trimL l).head? = (trim l).head? := head?_of_pref hpre hne
    cases hL : trimL l with
    | nil =>
      rw [hL] at hpre
      obtain ⟨t, ht⟩ := hpre
      exact absurd (List.append_eq_nil.mp ht).1 hne
    | cons c s =>
      have hdw : l.dropWhile isSpc = c :: s := hL
      have hcs : isSpc c = false := by
        have := List.head?_dropWhile_not isSpc l
        rw [hdw] at this
        simpa using this
      have hhc : (trim l).head? = some c := by
        rw [← hhead, hL]
        rfl
      have hgr : (trim l).getLast? = ((trimL l).reverse.dropWhile isSpc).head? := by
        show (trimR (trimL l)).getLast? = _
        unfold trimR
        rw [List.getLast?_reverse]
      cases hgl : (trim l).getLast? with
      | none =>
        rw [List.getLast?_eq_none_iff] at hgl
        exact absurd hgl hne
      | some d =>
        have hds : isSpc d = false := by
          have := List.head?_dropWhile_not isSpc (trimL l).reverse
          rw [← hgr, hgl] at this
          simpa using this
        exact trim_eq_self_of_ends hhc hcs hgl hds

theorem joinSp_cons_cons (a b : List Char) (bs : List (List Char)) :
    joinSp (a :: b :: bs) = a ++ ' ' :: joinSp (b :: bs) := rfl

theorem joinSp_ne_nil {b : List Char} (bs : List (List Char)) (hb : b ≠ []) :
    joinSp (b :: bs) ≠ [] := by
  cases bs with
  | nil => simpa [joinSp] using hb
  | cons b' bs' => simp [joinSp_cons_cons]

theorem joinSp_head? {b : List Char} (bs : List (List Char)) (hb : b ≠ []) :
    (joinSp (b :: bs)).head? = b.head? := by
  cases bs with
  | nil => rfl
  | cons b' bs' =>
    rw [joinSp_cons_cons, List.head?_append]
    cases b with
    | nil => exact absurd rfl hb
    | cons x xs => rfl

theorem getLast?_some_of_ne_nil {b : List Char} (hb : b ≠ []) :
    ∃ d, b.getLast? = some d := by
  cases hbl : b.getLast? with
  | none =>
    rw [List.getLast?_eq_none_iff] at hbl
    exact absurd hbl hb
  | some d => exact ⟨d, rfl⟩

theorem joinSp_getLast?_concat :
    ∀ (bs : List (List Char)) {b : List Char}, b ≠ [] →
      (joinSp (bs ++ [b])).getLast? = b.getLast? := by
  intro bs
  induction bs with
  | nil =>
    intro b hb
    rfl
  | cons a bs ih =>
    intro b hb
    rw [List.cons_append]
    cases hbs : bs ++ [b] with
    | nil => simp at hbs
    | cons c cs =>
      rw [joinSp_cons_cons, List.getLast?_append]
      have h2 : (' ' :: joinSp (c :: cs)).getLast?
          = (joinSp (c :: cs)).getLast?.or (some ' ') := by
        show ([' '] ++ joinSp (c :: cs)).getLast? = _
        rw [List.getLast?_append]
        rfl
      rw [h2, ← hbs, ih hb]
      obtain ⟨d, hd⟩ := getLast?_some_of_ne_nil hb
      rw [hd]
      rfl

theorem joinSp_good {buf : List (List Char)} (hbuf : ∀ s ∈ buf, GoodElem s)
    (hne : buf ≠ []) :
    trim (joinSp buf) = joinSp buf ∧ joinSp buf ≠ [] ∧ endsSemi (joinSp buf) = false := by
  cases buf with
  | nil => exact absurd rfl hne
  | cons b bs =>
    have hb : GoodElem b := hbuf b (by simp)
    have hbne : b ≠ [] := hb.2.1
    have hjne : joinSp (b :: bs) ≠ [] := joinSp_ne_nil bs hbne
    obtain ⟨c, hc⟩ : ∃ c, b.head? = some c := by
      cases b with
      | nil => exact absurd rfl hbne
      | cons x xs => exact ⟨x, rfl⟩
    have hcs : isSpc c = false := trim_fix_head hb.1 hc
    have hheads : (joinSp (b :: bs)).head? = some c := by
      rw [joinSp_head? bs hbne, hc]
    obtain ⟨bs', last, hconcat⟩ : ∃ bs' last, b :: bs = bs' ++ [last] := by
      rcases List.eq_nil_or_concat (b :: bs) with h | ⟨bs', last, h⟩
      · simp at h
      · exact ⟨bs', last, by simpa [List.concat_eq_append] using h⟩
    have hlastmem : last ∈ b :: bs := by
      rw [hconcat]
      simp
    have hlast : GoodElem last := hbuf last hlastmem
    obtain ⟨d, hd⟩ := getLast?_some_of_ne_nil hlast.2.1
    have hds : isSpc d = false := trim_fix_getLast hlast.1 hd
    have hgl : (joinSp (b :: bs)).getLast? = some d := by
      rw [hconcat, joinSp_getLast?_concat bs' hlast.2.1, hd]
    refine ⟨trim_eq_self_of_ends hheads hcs hgl hds, hjne, ?_⟩
    have hsemi : endsSemi last = false := hlast.2.2
    unfold endsSemi at hsemi ⊢
    rw [hgl]
    rw [hd] at hsemi
    simpa using hsemi

theorem dropSemis_eq_self {l : List Char} (h : endsSemi l = false) :
    dropSemis l = l := by
  unfold dropSemis
  rw [dropWhile_eq_self_of_head, List.reverse_reverse]
  intro c hc
  rw [List.head?_reverse] at hc
  unfold endsSemi at h
  rw [hc] at h
  simpa using h

/-! ## The splitter loop computes the chunk decomposition -/

theorem chunksFrom_eq_prependFirst :
    ∀ (ls : List (List Char)) (buf : List (List Char)),
      chunksFrom buf ls = prependFirst buf (chunks ls) := by
  intro ls
  induction ls with
  | nil =>
    intro buf
    rfl
  | cons l ls ih =>
    intro buf
    cases h : endsSemi l
    · simp only [chunksFrom, chunks, h, Bool.false_eq_true, if_false]
      rw [ih (buf ++ [l])]
      cases hc : chunks ls with
      | nil => simp [prependFirst]
      | cons c cs => simp [prependFirst]
    · simp only [chunksFrom, chunks, h, if_true]
      rw [ih []]
      cases hc : chunks ls with
      | nil => rfl
      | cons c cs => rfl

theorem finishStmt_eq {buf : List (List Char)} (hbuf : ∀ s ∈ buf, GoodElem s) :
    finishStmt buf
      = ((chunksFrom buf []).map specStmtOfChunk).filter (fun s => !s.isEmpty) := by
  cases buf with
  | nil => rfl
  | cons b bs =>
    obtain ⟨htr, hjne, hsemi⟩ := joinSp_good hbuf (by simp)
    have hE : (joinSp (b :: bs)).isEmpty = false := by
      cases hj : joinSp (b :: bs) with
      | nil => exact absurd hj hjne
      | cons x xs => rfl
    show (if !(trim (joinSp (b :: bs))).isEmpty && !endsSemi (trim (joinSp (b :: bs)))
          then [trim (joinSp (b :: bs))] else []) = _
    rw [htr]
    simp only [chunksFrom, List.isEmpty_cons, Bool.false_eq_true, if_false,
      List.map_cons, List.map_nil, specStmtOfChunk, dropSemis_eq_self hsemi, htr,
      List.filter_cons, List.filter_nil, hE, hsemi, Bool.not_false, Bool.and_self, if_true]

theorem splitLoop2_eq_chunksFrom :
    ∀ (ls : List (List Char)) (buf : List (List Char)),
      (∀ s ∈ ls, trim s = s ∧ s ≠ []) → (∀ s ∈ buf, GoodElem s) →
      splitLoop2 ls buf
        = ((chunksFrom buf ls).map specStmtOfChunk).filter (fun s => !s.isEmpty) := by
  intro ls
  induction ls with
  | nil =>
    intro buf _ hbuf
    exact finishStmt_eq hbuf
  | cons s ls ih =>
    intro buf hls hbuf
    have hs := hls s (by simp)
    have hls' : ∀ x ∈ ls, trim x = x ∧ x ≠ [] := fun x hx => hls x (by simp [hx])
    cases h : endsSemi s
    · have hbuf' : ∀ x ∈ buf ++ [s], GoodElem x := by
        intro x hx
        rcases List.mem_append.mp hx with hx | hx
        · exact hbuf x hx
        · simp only [List.mem_singleton] at hx
          subst hx
          exact ⟨hs.1, hs.2, h⟩
      simp only [splitLoop2, h, Bool.false_eq_true, if_false]
      rw [ih (buf ++ [s]) hls' hbuf']
      simp only [chunksFrom, h, Bool.false_eq_true, if_false]
    · simp only [splitLoop2, h, if_true]
      rw [ih [] hls' (by intro x hx; simp at hx)]
      simp only [chunksFrom, h, if_true, List.map_cons, List.filter_cons]
      cases hst : (specStmtOfChunk (buf ++ [s])).isEmpty
      · simp only [specStmtOfChunk] at hst
        simp only [hst, Bool.false_eq_true, if_false, Bool.not_false, if_true,
          specStmtOfChunk]
      · simp only [specStmtOfChunk] at hst
        simp only [hst, if_true, Bool.not_true, Bool.false_eq_true, if_false]

theorem splitLoop_eq_splitLoop2 :
    ∀ (ls : List (List Char)) (buf : List (List Char)),
      splitLoop ls buf = splitLoop2 (cleanLines ls) buf := by
  intro ls
  induction ls with
  | nil =>
    intro buf
    rfl
  | cons l ls ih =>
    intro buf
    cases hE : (cleanLine l).isEmpty
    · have hcl : cleanLines (l :: ls) = cleanLine l :: cleanLines ls := by
        simp only [cleanLines, List.map_cons, List.filter_cons, hE, Bool.not_false, if_true]
      rw [hcl]
      simp only [splitLoop, splitLoop2, hE, Bool.false_eq_true, if_false]
      cases h2 : endsSemi (cleanLine l)
      · simp only [h2, Bool.false_eq_true, if_false]
        exact ih (buf ++ [cleanLine l])
      · simp only [h2, if_true]
        cases hst : (trim (dropSemis (joinSp (buf ++ [cleanLine l])))).isEmpty
        · simp only [hst, Bool.false_eq_true, if_false]
          rw [ih []]
        · simp only [hst, if_true]
          exact ih []
    · have hcl : cleanLines (l :: ls) = cleanLines ls := by
        simp only [cleanLines, List.map_cons, List.filter_cons, hE, Bool.not_true,
          Bool.false_eq_true, if_false]
      rw [hcl]
      simp only [splitLoop, hE, if_true]
      exact ih buf

theorem cleanLines_good {ls : List (List Char)} :
    ∀ s ∈ cleanLines ls, trim s = s ∧ s ≠ [] := by
  intro s hs
  unfold cleanLines at hs
  rw [List.mem_filter] at hs
  obtain ⟨hmem, hne⟩ := hs
  rw [List.mem_map] at hmem
  obtain ⟨l, _, rfl⟩ := hmem
  constructor
  · show trim (cleanLine l) = cleanLine l
    unfold cleanLine
    exact trim_idem _
  · intro hnil
    rw [hnil] at hne
    simp at hne

theorem splitLoop_eq_specLines (ls : List (List Char)) :
    splitLoop ls [] = splitSpecLines ls := by
  rw [splitLoop_eq_splitLoop2,
    splitLoop2_eq_chunksFrom _ _ cleanLines_good (by intro x hx; simp at hx)]
  unfold splitSpecLines
  rw [chunksFrom_eq_prependFirst]
  cases chunks (cleanLines ls) with
  | nil => rfl
  | cons c cs => simp [prependFirst]

/-! ## Closed form of the execution engine -/

theorem runLoop_spec (c : Client) :
    ∀ (ss : List (List Char)) (i : Nat) (st : EngineState),
      runLoop c ss i st
        = ⟨⟨st.report.total_statements,
            st.report.successful + specSucc c ss i,
            st.report.failed + specFail c ss i,
            st.report.errors ++ specErrors c ss i⟩,
           st.calls ++ callsSpec ss i⟩ := by
  intro ss
  induction ss with
  | nil =>
    intro i st
    simp [runLoop, specSucc, specFail, specErrors, callsSpec]
  | cons s ss ih =>
    intro i st
    simp only [runLoop]
    rw [ih]
    unfold runStep
    cases hd : isDisplayOnly s
    · cases ho : outcomeOf c i s with
      | ok n =>
        simp [specSucc, specFail, specErrors, callsSpec, hd, ho,
          Nat.add_assoc, List.append_assoc, Nat.add_comm 1]
      | err m =>
        simp [specSucc, specFail, specErrors, callsSpec, hd, ho,
          Nat.add_assoc, List.append_assoc, Nat.add_comm 1]
    · simp [specSucc, specFail, specErrors, callsSpec, hd,
        Nat.add_assoc, List.append_assoc]

theorem execute_setup_core_spec (c : Client) (stmts : List (List Char)) :
    execute_setup_core c stmts
      = ⟨⟨stmts.length, specSucc c stmts 1, specFail c stmts 1, specErrors c stmts 1⟩,
         callsSpec stmts 1⟩ := by
  unfold execute_setup_core
  rw [runLoop_spec]
  simp

theorem specSucc_add_specFail (c : Client) :
    ∀ (ss : List (List Char)) (i : Nat),
      specSucc c ss i + specFail c ss i
        = (ss.filter (fun s => !isDisplayOnly s)).length := by
  intro ss
  induction ss with
  | nil =>
    intro i
    rfl
  | cons s ss ih =>
    intro i
    simp only [specSucc, specFail, List.filter_cons]
    cases hd : isDisplayOnly s
    · cases ho : outcomeOf c i s with
      | ok n =>
        have := ih (i + 1)
        simp [hd, ho]
        omega
      | err m =>
        have := ih (i + 1)
        simp [hd, ho]
        omega
    · have := ih (i + 1)
      simp [hd]
      omega

theorem length_filter_display (ss : List (List Char)) :
    (ss.filter (fun s => !isDisplayOnly s)).length
      + (ss.filter (fun s => isDisplayOnly s)).length = ss.length := by
  induction ss with
  | nil => rfl
  | cons s ss ih =>
    cases hd : isDisplayOnly s
    · simp only [List.filter_cons, hd, Bool.not_false, if_true, Bool.false_eq_true,
        if_false, List.length_cons, List.length]
      omega
    · simp only [List.filter_cons, hd, Bool.not_true, if_true, Bool.false_eq_true,
        if_false, List.length_cons, List.length]
      omega

theorem specErrors_number (c : Client) :
    ∀ (ss : List (List Char)) (i0 : Nat), ∀ e ∈ specErrors c ss i0,
      ∃ j, ∃ hj : j < ss.length, e.statement_number = i0 + j
        ∧ isDisplayOnly (ss.get ⟨j, hj⟩) = false := by
  intro ss
  induction ss with
  | nil =>
    intro i0 e he
    simp [specErrors] at he
  | cons s ss ih =>
    intro i0 e he
    simp only [specErrors] at he
    rw [List.mem_append] at he
    rcases he with he | he
    · rw [show isDisplayOnly s = isDisplayOnly s from rfl] at he
      cases hd : isDisplayOnly s
      · cases ho : outcomeOf c i0 s with
        | ok n =>
          rw [hd, ho] at he
          simp at he
        | err m =>
          rw [hd, ho] at he
          simp only [List.mem_singleton] at he
          subst he
          exact ⟨0, by simp, by simp, by simpa using hd⟩
      · rw [hd] at he
        simp at he
    · obtain ⟨j, hj, hnum, hdisp⟩ := ih (i0 + 1) e he
      refine ⟨j + 1, by simpa using Nat.succ_lt_succ hj, by omega, ?_⟩
      simpa using hdisp

theorem specErrors_mem (c : Client) :
    ∀ (ss : List (List Char)) (i0 j : Nat) (hj : j < ss.length) (m : List Char),
      isDisplayOnly (ss.get ⟨j, hj⟩) = false →
      outcomeOf c (i0 + j) (ss.get ⟨j, hj⟩) = .err m →
      (⟨i0 + j, preview (ss.get ⟨j, hj⟩), m⟩ : ErrEntry) ∈ specErrors c ss i0 := by
  intro ss
  induction ss with
  | nil =>
    intro i0 j hj
    simp at hj
  | cons s ss ih =>
    intro i0 j hj m hd ho
    cases j with
    | zero =>
      simp only [List.get] at hd ho ⊢
      simp only [Nat.add_zero] at ho ⊢
      simp only [specErrors, List.mem_append]
      left
      rw [hd, ho]
      simp
    | succ j' =>
      have harith : i0 + (j' + 1) = (i0 + 1) + j' := by omega
      have hd' : isDisplayOnly (ss.get ⟨j', by simpa using hj⟩) = false := by
        simpa using hd
      have ho' : outcomeOf c ((i0 + 1) + j') (ss.get ⟨j', by simpa using hj⟩) = .err m := by
        rw [← harith]
        simpa using ho
      have := ih (i0 + 1) j' (by simpa using hj) m hd' ho'
      simp only [specErrors, List.mem_append]
      right
      rw [harith]
      simpa using this

theorem callsSpec_mem :
    ∀ (ss : List (List Char)) (i0 j : Nat) (hj : j < ss.length),
      (i0 + j, ss.get ⟨j, hj⟩) ∈ callsSpec ss i0 := by
  intro ss
  induction ss with
  | nil =>
    intro i0 j hj
    simp at hj
  | cons s ss ih =>
    intro i0 j hj
    cases j with
    | zero => simp [callsSpec]
    | succ j' =>
      have harith : i0 + (j' + 1) = (i0 + 1) + j' := by omega
      simp only [callsSpec, List.mem_cons]
      right
      rw [harith]
      simpa using ih (i0 + 1) j' (by simpa using hj)

/-! ## The verifier loops compute the per-category check -/

theorem tableLoop_eq_checkCategory
    (countOf : List Char → Except (List Char) (List Nat))
    (existing : List (List Char)) :
    ∀ (names : List (List Char)) (tAcc : List (List Char × Bool))
      (cAcc : List (List Char × Nat)),
      tableLoop countOf existing names tAcc cAcc
        = (tAcc ++ (checkCategory countOf existing names).1,
           cAcc ++ (checkCategory countOf existing names).2) := by
  intro names
  induction names with
  | nil =>
    intro tAcc cAcc
    simp [tableLoop, checkCategory]
  | cons n ns ih =>
    intro tAcc cAcc
    simp only [tableLoop, checkCategory]
    cases hex : existing.contains (upper n)
    · simp only [hex, Bool.false_eq_true, if_false]
      rw [ih]
      simp [List.append_assoc]
    · simp only [hex, if_true]
      cases hco : countOf n with
      | error e => simp
      | ok cs =>
        simp [ih, List.append_assoc]

theorem viewLoop_eq_checkCategory
    (countOf : List Char → Except (List Char) (List Nat))
    (existing : List (List Char)) :
    ∀ (names : List (List Char)) (tAcc : List (List Char × Bool))
      (cAcc : List (List Char × Nat)),
      viewLoop countOf existing names tAcc cAcc
        = (tAcc ++ (checkCategory countOf existing names).1,
           cAcc ++ (checkCategory countOf existing names).2) := by
  intro names
  induction names with
  | nil =>
    intro tAcc cAcc
    simp [viewLoop, checkCategory]
  | cons n ns ih =>
    intro tAcc cAcc
    simp only [viewLoop, checkCategory]
    cases hex : existing.contains (upper n)
    · simp only [hex, Bool.false_eq_true, if_false]
      rw [ih]
      simp [List.append_assoc]
    · simp only [hex, if_true]
      cases hco : countOf n with
      | error e => simp
      | ok cs =>
        simp [ih, List.append_assoc]

/-! ## Line-count behaviour of the block-comment stripper -/

theorem stripBlockLines_length_le :
    ∀ (ls : List (List Char)) (b : Bool),
      (stripBlockLines b ls).length ≤ ls.length := by
  intro ls
  induction ls with
  | nil =>
    intro b
    simp [stripBlockLines]
  | cons l ls ih =>
    intro b
    simp only [stripBlockLines]
    obtain ⟨l1, b1⟩ := blockStep b l
    cases b1
    · simp only [Bool.false_eq_true, if_false, List.length_cons]
      exact Nat.succ_le_succ (ih false)
    · simp only [if_true]
      cases hf : findSub? "*/".data l1 with
      | none => exact Nat.le_succ_of_le (ih true)
      | some e =>
        simp only [List.length_cons]
        exact Nat.succ_le_succ (ih false)

theorem stripBlockLines_id :
    ∀ (ls : List (List Char)),
      (∀ l ∈ ls, containsSub "/*".data l = false) →
      stripBlockLines false ls = ls := by
  intro ls
  induction ls with
  | nil =>
    intro _
    rfl
  | cons l ls ih =>
    intro h
    have hl := h l (by simp)
    have hrest : ∀ x ∈ ls, containsSub "/*".data x = false :=
      fun x hx => h x (by simp [hx])
    simp only [stripBlockLines, blockStep, hl, Bool.false_eq_true, if_false]
    exact congrArg (l :: ·) (ih hrest)

/-! ## Facts about substring search -/

theorem findSub?_none_isPref {p : List Char} :
    ∀ (l : List Char), findSub? p l = none → ∀ j, isPref p (l.drop j) = false := by
  intro l
  induction l with
  | nil =>
    intro h j
    rw [List.drop_nil]
    cases hp : isPref p []
    · rfl
    · simp [findSub?, hp] at h
  | cons c t ih =>
    intro h j
    simp only [findSub?] at h
    cases hp : isPref p (c :: t)
    · rw [hp] at h
      simp only [Bool.false_eq_true, if_false] at h
      have ht : findSub? p t = none := by
        cases hft : findSub? p t
        · rfl
        · rw [hft] at h
          simp at h
      cases j with
      | zero => simpa using hp
      | succ j' => simpa using ih ht j'
    · rw [hp] at h
      simp at h

theorem findSub?_some_isPref {p : List Char} :
    ∀ (l : List Char) (j : Nat), findSub? p l = some j →
      isPref p (l.drop j) = true ∧ ∀ k, k < j → isPref p (l.drop k) = false := by
  intro l
  induction l with
  | nil =>
    intro j h
    simp only [findSub?] at h
    cases hp : isPref p []
    · rw [hp] at h
      simp at h
    · rw [hp] at h
      simp only [if_true, Option.some.injEq] at h
      subst h
      exact ⟨by simpa using hp, by intro k hk; omega⟩
  | cons c t ih =>
    intro j h
    simp only [findSub?] at h
    cases hp : isPref p (c :: t)
    · rw [hp] at h
      simp only [Bool.false_eq_true, if_false, Option.map_eq_some'] at h
      obtain ⟨j', hj', rfl⟩ := h
      obtain ⟨h1, h2⟩ := ih j' hj'
      refine ⟨by simpa using h1, ?_⟩
      intro k hk
      cases k with
      | zero => simpa using hp
      | succ k' => simpa using h2 k' (by omega)
    · rw [hp] at h
      simp only [if_true, Option.some.injEq] at h
      subst h
      exact ⟨by simpa using hp, by intro k hk; omega⟩

theorem findSub?_eq_some_first {p : List Char} :
    ∀ (l : List Char) (j : Nat),
      isPref p (l.drop j) = true → (∀ k, k < j → isPref p (l.drop k) = false) →
      findSub? p l = some j := by
  intro l
  induction l with
  | nil =>
    intro j h1 h2
    rw [List.drop_nil] at h1
    cases j with
    | zero => simp [findSub?, h1]
    | succ j' =>
      have h0 := h2 0 (by omega)
      rw [List.drop_zero] at h0
      rw [h0] at h1
      cases h1
  | cons c t ih =>
    intro j h1 h2
    cases j with
    | zero =>
      rw [List.drop_zero] at h1
      simp [findSub?, h1]
    | succ j' =>
      have h0 := h2 0 (by omega)
      rw [List.drop_zero] at h0
      simp only [findSub?, h0, Bool.false_eq_true, if_false]
      have ht : findSub? p t = some j' := by
        refine ih j' (by simpa using h1) ?_
        intro k hk
        simpa using h2 (k + 1) (by omega)
      rw [ht]
      rfl

theorem isPref_of_pref {p : List Char} :
    ∀ {x y : List Char}, isPref p x = true → x <+: y → isPref p y = true := by
  induction p with
  | nil =>
    intro x y _ _
    rfl
  | cons a p' ih =>
    intro x y h hxy
    cases x with
    | nil => simp [isPref] at h
    | cons b x' =>
      obtain ⟨t, rfl⟩ := hxy
      simp only [isPref, List.cons_append, Bool.and_eq_true] at h ⊢
      exact ⟨h.1, ih h.2 ⟨t, rfl⟩⟩

theorem containsSub_take_false {p l : List Char}
    (h : containsSub p l = false) (n : Nat) :
    containsSub p (l.take n) = false := by
  unfold containsSub at h ⊢
  cases hf : findSub? p (l.take n) with
  | none => rfl
  | some j =>
    exfalso
    obtain ⟨h1, _⟩ := findSub?_some_isPref _ j hf
    have hpre : (l.take n).drop j <+: l.drop j := by
      rw [List.drop_take]
      exact List.take_prefix _ _
    have h2 : isPref p (l.drop j) = true := isPref_of_pref h1 hpre
    cases hfl : findSub? p l with
    | some _ =>
      rw [hfl] at h
      simp at h
    | none =>
      have h3 := findSub?_none_isPref l hfl j
      rw [h2] at h3
      cases h3

theorem containsSub_of_findSub?_some {p l : List Char} {j : Nat}
    (h : findSub? p l = some j) : containsSub p l = true := by
  unfold containsSub
  rw [h]
  rfl

theorem findSub?_none_of_containsSub_false {p l : List Char}
    (h : containsSub p l = false) : findSub? p l = none := by
  unfold containsSub at h
  cases hf : findSub? p l with
  | none => rfl
  | some j =>
    rw [hf] at h
    simp at h

/-! ## Stepping behaviour of the block-comment stripper -/

theorem stripBlockLines_open (l : List Char) (ls : List (List Char))
    (h1 : containsSub "/*".data l = true) (h2 : containsSub "*/".data l = false) :
    stripBlockLines false (l :: ls) = stripBlockLines true ls := by
  obtain ⟨s, hs⟩ : ∃ s, findSub? "/*".data l = some s := by
    unfold containsSub at h1
    cases hf : findSub? "/*".data l
    · rw [hf] at h1
      simp at h1
    · exact ⟨_, rfl⟩
  have hstep : blockStep false l = (l.take s, true) := by
    unfold blockStep
    rw [h1, h2, hs]
    simp
  have hnone : findSub? "*/".data (l.take s) = none :=
    findSub?_none_of_containsSub_false (containsSub_take_false h2 s)
  simp only [stripBlockLines, hstep, if_true, hnone]

theorem stripBlockLines_inside (l : List Char) (ls : List (List Char))
    (h : containsSub "*/".data l = false) :
    stripBlockLines true (l :: ls) = stripBlockLines true ls := by
  cases h1 : containsSub "/*".data l
  · have hstep : blockStep true l = (l, true) := by
      unfold blockStep
      rw [h1]
      simp
    have hnone := findSub?_none_of_containsSub_false h
    simp only [stripBlockLines, hstep, if_true, hnone]
  · obtain ⟨s, hs⟩ : ∃ s, findSub? "/*".data l = some s := by
      unfold containsSub at h1
      cases hf : findSub? "/*".data l
      · rw [hf] at h1
        simp at h1
      · exact ⟨_, rfl⟩
    have hstep : blockStep true l = (l.take s, true) := by
      unfold blockStep
      rw [h1, h, hs]
      simp
    have hnone : findSub? "*/".data (l.take s) = none :=
      findSub?_none_of_containsSub_false (containsSub_take_false h s)
    simp only [stripBlockLines, hstep, if_true, hnone]

theorem stripBlockLines_closeLine (l : List Char) (ls : List (List Char)) (q : Nat)
    (h1 : containsSub "/*".data l = false) (h2 : findSub? "*/".data l = some q) :
    stripBlockLines true (l :: ls) = l.drop (q + 2) :: stripBlockLines false ls := by
  have hstep : blockStep true l = (l, true) := by
    unfold blockStep
    rw [h1]
    simp
  simp only [stripBlockLines, hstep, if_true, h2]

theorem stripBlockLines_excise (m : List Char) (ls : List (List Char))
    (f1 f2 : Nat) (h1 : findSub? "/*".data m = some f1)
    (h2 : findSub? "*/".data m = some f2)
    (h3 : containsSub "*/".data (m.take f1 ++ m.drop (f2 + 2)) = false) :
    stripBlockLines true (m :: ls) = stripBlockLines true ls := by
  have hc1 : containsSub "/*".data m = true := containsSub_of_findSub?_some h1
  have hc2 : containsSub "*/".data m = true := containsSub_of_findSub?_some h2
  have hstep : blockStep true m = (m.take f1 ++ m.drop (f2 + 2), true) := by
    unfold blockStep
    rw [hc1, hc2, h1, h2]
    rfl
  have hnone := findSub?_none_of_containsSub_false h3
  simp only [stripBlockLines, hstep, if_true, hnone]

theorem stripBlockLines_drop (m : List Char) (ls : List (List Char))
    (h : whollyCommented m = true) :
    stripBlockLines true (m :: ls) = stripBlockLines true ls := by
  unfold whollyCommented at h
  cases h2 : findSub? "*/".data m with
  | none =>
    refine stripBlockLines_inside m ls ?_
    unfold containsSub
    rw [h2]
    rfl
  | some f2 =>
    cases h1 : findSub? "/*".data m with
    | none =>
      rw [h1, h2] at h
      simp at h
    | some f1 =>
      rw [h1, h2] at h
      simp only [Bool.not_eq_true'] at h
      exact stripBlockLines_excise m ls f1 f2 h1 h2 h

/-! ## No output of the splitter contains a newline -/

theorem mem_splitNL_no_nl :
    ∀ (l : List Char), ∀ p ∈ splitNL l, '\n' ∉ p := by
  intro l
  induction l with
  | nil =>
    intro p hp
    simp only [splitNL, List.mem_singleton] at hp
    subst hp
    simp
  | cons c t ih =>
    intro p hp
    simp only [splitNL] at hp
    by_cases hc : c = '\n'
    · rw [if_pos hc] at hp
      rcases List.mem_cons.mp hp with rfl | hp
      · simp
      · exact ih p hp
    · rw [if_neg hc] at hp
      cases hs : splitNL t with
      | nil =>
        rw [hs] at hp
        simp only [List.mem_singleton] at hp
        subst hp
        intro hmem
        rcases List.mem_singleton.mp hmem with heq
        exact hc heq.symm
      | cons q qs =>
        rw [hs] at hp
        rcases List.mem_cons.mp hp with rfl | hp
        · intro hmem
          rcases List.mem_cons.mp hmem with heq | hmem
          · exact hc heq.symm
          · exact ih q (by rw [hs]; simp) hmem
        · exact ih p (by rw [hs]; simp [hp])

theorem blockStep_subset (b : Bool) (l : List Char) {c : Char}
    (hc : c ∈ (blockStep b l).1) : c ∈ l := by
  unfold blockStep at hc
  cases h1 : containsSub "/*".data l <;> rw [h1] at hc
  · simpa using hc
  · cases h2 : containsSub "*/".data l <;> rw [h2] at hc
    · cases hf : findSub? "/*".data l <;> rw [hf] at hc
      · simpa using hc
      · simp only [Bool.false_eq_true, if_false, if_true] at hc
        exact List.take_subset _ _ hc
    · cases hf : findSub? "/*".data l <;> rw [hf] at hc
      · simpa using hc
      · cases he : findSub? "*/".data l <;> rw [he] at hc
        · simpa using hc
        · simp only [if_true] at hc
          rcases List.mem_append.mp hc with hc | hc
          · exact List.take_subset _ _ hc
          · exact List.drop_subset _ _ hc

theorem stripBlockLines_no_nl :
    ∀ (ls : List (List Char)) (b : Bool),
      (∀ l ∈ ls, '\n' ∉ l) → ∀ p ∈ stripBlockLines b ls, '\n' ∉ p := by
  intro ls
  induction ls with
  | nil =>
    intro b _ p hp
    simp [stripBlockLines] at hp
  | cons l ls ih =>
    intro b h p hp
    have hl : '\n' ∉ l := h l (by simp)
    have hrest : ∀ x ∈ ls, '\n' ∉ x := fun x hx => h x (by simp [hx])
    simp only [stripBlockLines] at hp
    cases hbs : blockStep b l with
    | mk l1 b1 =>
      rw [hbs] at hp
      have hl1 : '\n' ∉ l1 := by
        intro hmem
        exact hl (blockStep_subset b l (by rw [hbs]; exact hmem))
      cases b1
      · simp only [Bool.false_eq_true, if_false] at hp
        rcases List.mem_cons.mp hp with rfl | hp
        · exact hl1
        · exact ih false hrest p hp
      · simp only [if_true] at hp
        cases hf : findSub? "*/".data l1 with
        | none =>
          rw [hf] at hp
          exact ih true hrest p hp
        | some e =>
          rw [hf] at hp
          rcases List.mem_cons.mp hp with rfl | hp
          · intro hmem
            exact hl1 (List.drop_subset _ _ hmem)
          · exact ih false hrest p hp

theorem mem_trim {c : Char} {l : List Char} (h : c ∈ trim l) : c ∈ l := by
  unfold trim trimR trimL at h
  rw [List.mem_reverse] at h
  have h2 := (List.dropWhile_suffix isSpc).sublist.subset h
  rw [List.mem_reverse] at h2
  exact (List.dropWhile_suffix isSpc).sublist.subset h2

theorem mem_dropSemis {c : Char} {l : List Char} (h : c ∈ dropSemis l) : c ∈ l := by
  unfold dropSemis at h
  rw [List.mem_reverse] at h
  have h2 := (List.dropWhile_suffix _).sublist.subset h
  rw [List.mem_reverse] at h2
  exact h2

theorem mem_joinSp {c : Char} :
    ∀ {ls : List (List Char)}, c ∈ joinSp ls → c = ' ' ∨ ∃ l ∈ ls, c ∈ l := by
  intro ls
  induction ls with
  | nil =>
    intro h
    simp [joinSp] at h
  | cons a ls ih =>
    intro h
    cases ls with
    | nil => exact Or.inr ⟨a, by simp, by simpa [joinSp] using h⟩
    | cons b bs =>
      rw [joinSp_cons_cons] at h
      rcases List.mem_append.mp h with h | h
      · exact Or.inr ⟨a, by simp, h⟩
      · rcases List.mem_cons.mp h with rfl | h
        · exact Or.inl rfl
        · rcases ih h with h | ⟨x, hx, hc⟩
          · exact Or.inl h
          · exact Or.inr ⟨x, by simp [hx], hc⟩

theorem mem_stripLineComment {c : Char} {l : List Char}
    (h : c ∈ stripLineComment l) : c ∈ l := by
  unfold stripLineComment at h
  cases hf : findSub? "--".data l with
  | none =>
    rw [hf] at h
    exact h
  | some q =>
    rw [hf] at h
    simp only [] at h
    by_cases hq : (l.take q).count '\'' % 2 = 0
    · rw [if_pos hq] at h
      exact List.take_subset _ _ h
    · rw [if_neg hq] at h
      exact h

theorem chunks_mem :
    ∀ (ls : List (List Char)) (ch : List (List Char)), ch ∈ chunks ls →
      ∀ x ∈ ch, x ∈ ls := by
  intro ls
  induction ls with
  | nil =>
    intro ch hch
    simp [chunks] at hch
  | cons l ls ih =>
    intro ch hch x hx
    simp only [chunks] at hch
    cases h : endsSemi l <;> rw [h] at hch
    · cases hc : chunks ls with
      | nil =>
        rw [hc] at hch
        simp only [Bool.false_eq_true, if_false, List.mem_singleton] at hch
        subst hch
        simp only [List.mem_singleton] at hx
        subst hx
        simp
      | cons ch0 cs =>
        rw [hc] at hch
        simp only [Bool.false_eq_true, if_false, List.mem_cons] at hch
        rcases hch with rfl | hch
        · rcases List.mem_cons.mp hx with rfl | hx
          · simp
          · have := ih ch0 (by rw [hc]; simp) x hx
            simp [this]
        · have := ih ch (by rw [hc]; simp [hch]) x hx
          simp [this]
    · simp only [if_true, List.mem_cons] at hch
      rcases hch with rfl | hch
      · simp only [List.mem_singleton] at hx
        subst hx
        simp
      · have := ih ch hch x hx
        simp [this]

theorem cleanLines_mem_src {ls : List (List Char)} {s : List Char}
    (h : s ∈ cleanLines ls) : ∃ l ∈ ls, s = cleanLine l := by
  unfold cleanLines at h
  rw [List.mem_filter] at h
  obtain ⟨h1, _⟩ := h
  rw [List.mem_map] at h1
  obtain ⟨l, hl, rfl⟩ := h1
  exact ⟨l, hl, rfl⟩

theorem stripBlockLines_skip_until :
    ∀ (ms : List (List Char)) (e : List Char) (rest : List (List Char)) (q : Nat),
      (∀ m ∈ ms, containsSub "*/".data m = false) →
      containsSub "/*".data e = false → findSub? "*/".data e = some q →
      stripBlockLines true (ms ++ e :: rest)
        = e.drop (q + 2) :: stripBlockLines false rest := by
  intro ms
  induction ms with
  | nil =>
    intro e rest q _ he1 he2
    rw [List.nil_append]
    exact stripBlockLines_closeLine e rest q he1 he2
  | cons m ms ih =>
    intro e rest q hms he1 he2
    rw [List.cons_append, stripBlockLines_inside m _ (hms m (by simp))]
    exact ih e rest q (fun x hx => hms x (by simp [hx])) he1 he2

/-! ## Claim theorems -/

/-- Claim C3: the splitter, run on any line list, equals the spec-level
description: clean each line (line-comment removal + trim), drop blanks,
close a statement exactly after each line ending in a semicolon (`chunks`),
join each group with single spaces, strip the trailing semicolons, keep the
non-empty results in source order, and emit a trailing unterminated group as
a final statement.  The second conjunct states it for the full
`split_sql_statements` pipeline. -/
theorem split_statements_boundary_spec :
    (∀ ls : List (List Char), splitLoop ls [] = splitSpecLines ls) ∧
    (∀ content : List Char,
      split_sql_statements content
        = splitSpecLines (stripBlockLines false (splitNL content))) :=
  ⟨splitLoop_eq_specLines, fun _ => splitLoop_eq_specLines _⟩

/-- Claim C9 (amended): every statement returned by `split_sql_statements`
is non-empty, already trimmed, and contains no newline.  The original
claim's "does not end with a semicolon" part is false: trailing semicolons
are stripped before the final whitespace trim, so whitespace-separated
trailing semicolons can leave a final `;` (see the counterexample). -/
theorem statements_trimmed_nonempty :
    ∀ (content : List Char) (s : List Char), s ∈ split_sql_statements content →
      trim s = s ∧ s ≠ [] ∧ '\n' ∉ s := by
  intro content s hs
  unfold split_sql_statements at hs
  rw [splitLoop_eq_specLines] at hs
  unfold splitSpecLines at hs
  rw [List.mem_filter] at hs
  obtain ⟨hmem, hne⟩ := hs
  rw [List.mem_map] at hmem
  obtain ⟨ch, hch, rfl⟩ := hmem
  refine ⟨trim_idem _, ?_, ?_⟩
  · intro hnil
    rw [hnil] at hne
    simp at hne
  · intro hnl
    unfold specStmtOfChunk at hnl
    have h1 : '\n' ∈ joinSp ch := mem_dropSemis (mem_trim hnl)
    rcases mem_joinSp h1 with heq | ⟨x, hx, hmemx⟩
    · exact absurd heq (by decide)
    · have hxcl := chunks_mem _ ch hch x hx
      obtain ⟨l, hl, rfl⟩ := cleanLines_mem_src hxcl
      have h2 : '\n' ∈ l := mem_stripLineComment (mem_trim hmemx)
      exact stripBlockLines_no_nl _ false
        (fun p hp => mem_splitNL_no_nl content p hp) l hl h2

/-- Witness for C9 at a concrete script. -/
theorem statements_trimmed_nonempty_witness :
    ("SELECT 1".data ∈ split_sql_statements "SELECT 1;\n".data) ∧
    (trim "SELECT 1".data = "SELECT 1".data ∧ "SELECT 1".data ≠ []
      ∧ '\n' ∉ "SELECT 1".data) :=
  ⟨by decide, statements_trimmed_nonempty "SELECT 1;\n".data "SELECT 1".data (by decide)⟩

/-- Counterexample for C9 as stated: on the script `a; ;` the single
returned statement is `a;`, which ends with a semicolon. -/
theorem statement_trailing_semi_cex :
    split_sql_statements "a; ;".data = ["a;".data] ∧ endsSemi "a;".data = true := by
  decide

/-- Claim C5 (amended): the block-comment stripper never increases the line
count and keeps every line verbatim when no block-comment start marker
occurs; but lines inside a multi-line block comment are dropped, so the
line count can decrease (see the counterexample). -/
theorem strip_block_line_count :
    (∀ (ls : List (List Char)) (b : Bool),
      (stripBlockLines b ls).length ≤ ls.length) ∧
    (∀ ls : List (List Char), (∀ l ∈ ls, containsSub "/*".data l = false) →
      stripBlockLines false ls = ls) :=
  ⟨stripBlockLines_length_le, stripBlockLines_id⟩

/-- Counterexample for C5 as stated: a block comment spanning lines 2-4
makes the stripper return 3 lines for a 5-line input, so the line count is
not preserved. -/
theorem strip_block_line_count_cex :
    (splitNL "a\n/*\nx\n*/\nb".data).length = 5 ∧
    (stripBlockLines false (splitNL "a\n/*\nx\n*/\nb".data)).length = 3 := by
  decide

/-- Witness for C5's amended identity part at a concrete input. -/
theorem strip_block_line_count_witness :
    (∀ l ∈ ["ab".data, "cd".data], containsSub "/*".data l = false) ∧
    stripBlockLines false ["ab".data, "cd".data] = ["ab".data, "cd".data] :=
  ⟨by decide, strip_block_line_count.2 ["ab".data, "cd".data] (by decide)⟩

/-- Claim C6: when the first `--` marker of a line sits at position `p`
(no earlier occurrence), the marker and the rest of the line are removed
exactly when the number of single quotes before it is even; with an odd
count the line is preserved verbatim. -/
theorem line_comment_quote_parity :
    ∀ (l : List Char) (p : Nat),
      isPref "--".data (l.drop p) = true →
      (∀ k, k < p → isPref "--".data (l.drop k) = false) →
      ((l.take p).count '\'' % 2 = 0 → stripLineComment l = l.take p) ∧
      ((l.take p).count '\'' % 2 ≠ 0 → stripLineComment l = l) := by
  intro l p h1 h2
  have hf : findSub? "--".data l = some p := findSub?_eq_some_first l p h1 h2
  unfold stripLineComment
  rw [hf]
  constructor
  · intro he
    simp only []
    rw [if_pos he]
  · intro ho
    simp only []
    rw [if_neg ho]

/-- Witness for C6: one odd-quote line kept verbatim, one plain line cut at
the marker. -/
theorem line_comment_quote_parity_witness :
    (isPref "--".data ("a'b -- c".data.drop 4) = true) ∧
    stripLineComment "a'b -- c".data = "a'b -- c".data ∧
    stripLineComment "ab -- c".data = "ab -- c".data.take 3 :=
  ⟨by decide,
   (line_comment_quote_parity "a'b -- c".data 4 (by decide) (by decide)).2 (by decide),
   (line_comment_quote_parity "ab -- c".data 3 (by decide) (by decide)).1 (by decide)⟩

/-- Claim C10: first conjunct — a line containing a block-comment start
marker with no matching end marker on the same line contributes nothing to
the output: the text before the `/*` marker is discarded together with the
rest of the line (the truncated prefix is never emitted), and processing of
the following lines continues inside the block comment.  Second conjunct —
while inside a block comment, every wholly-commented line (one that does
not close the comment: it has no `*/` at all, or the same-line excision of
its `/* ... */` pair leaves no `*/`) is dropped from the output, so all
such lines up to the line that actually closes the comment vanish; the
closing line itself is left unconstrained. -/
theorem block_comment_discard :
    (∀ (b : Bool) (l : List Char) (ls : List (List Char)),
      containsSub "/*".data l = true → containsSub "*/".data l = false →
      stripBlockLines b (l :: ls) = stripBlockLines true ls) ∧
    (∀ (ms ls : List (List Char)),
      (∀ m ∈ ms, whollyCommented m = true) →
      stripBlockLines true (ms ++ ls) = stripBlockLines true ls) := by
  constructor
  · intro b l ls h1 h2
    cases b
    · exact stripBlockLines_open l ls h1 h2
    · exact stripBlockLines_inside l ls h2
  · intro ms
    induction ms with
    | nil =>
      intro ls _
      rw [List.nil_append]
    | cons m ms ih =>
      intro ls hms
      rw [List.cons_append, stripBlockLines_drop m _ (hms m (by simp))]
      exact ih ls (fun x hx => hms x (by simp [hx]))

/-- Witness for C10: the opening line (prefix `ab ` included) is discarded;
a plain commented line and a commented line whose self-contained
`/* ... */` pair is excised are both dropped; the remaining lines — led by
`z */ w /* v`, a closing line that itself contains a `/*` — stay
unconstrained. -/
theorem block_comment_discard_witness :
    (containsSub "/*".data "ab /* c".data = true ∧
     containsSub "*/".data "ab /* c".data = false ∧
     whollyCommented "x".data = true ∧
     whollyCommented "a /* b */ c".data = true) ∧
    stripBlockLines false
        ["ab /* c".data, "x".data, "a /* b */ c".data, "z */ w /* v".data, "r".data]
      = stripBlockLines true ["z */ w /* v".data, "r".data] :=
  ⟨by decide,
   (block_comment_discard.1 false "ab /* c".data
       ["x".data, "a /* b */ c".data, "z */ w /* v".data, "r".data]
       (by decide) (by decide)).trans
     (block_comment_discard.2 ["x".data, "a /* b */ c".data]
       ["z */ w /* v".data, "r".data] (by decide))⟩

/-- Claim C1 (amended): the run report's `total_statements` equals the
statement count, and `successful + failed` accounts for every statement
except the display-only ones, i.e. `successful + failed + #display-only =
total`.  The original equality `total = successful + failed` fails when a
display-only statement occurs (see the counterexample). -/
theorem execute_setup_total_counts :
    ∀ (c : Client) (stmts : List (List Char)),
      (execute_setup c stmts).total_statements = stmts.length ∧
      (execute_setup c stmts).successful + (execute_setup c stmts).failed
          + (stmts.filter (fun s => isDisplayOnly s)).length
        = (execute_setup c stmts).total_statements := by
  intro c stmts
  unfold execute_setup
  rw [execute_setup_core_spec]
  constructor
  · rfl
  · show specSucc c stmts 1 + specFail c stmts 1 + _ = stmts.length
    rw [specSucc_add_specFail]
    exact length_filter_display stmts

/-- Counterexample for C1 as stated: a script consisting of one
display-only statement has `total = 1` but `successful = failed = 0`. -/
theorem execute_setup_display_skip_cex :
    ¬ ((execute_setup ⟨fun _ => ExecResult.ok 0, fun _ => ExecResult.ok 0⟩
          ["SELECT 1 LIMIT 1".data]).total_statements
        = (execute_setup ⟨fun _ => ExecResult.ok 0, fun _ => ExecResult.ok 0⟩
            ["SELECT 1 LIMIT 1".data]).successful
          + (execute_setup ⟨fun _ => ExecResult.ok 0, fun _ => ExecResult.ok 0⟩
              ["SELECT 1 LIMIT 1".data]).failed) := by
  decide

/-- Claim C2: per-statement failure isolation.  First conjunct: the engine's
report is exactly the spec-side closed form — every non-display statement
contributes one success or one failure, failures append one error entry
carrying the 1-based index, truncated preview and raw message, and execution
reaches every statement.  Second conjunct: any failing non-display statement
yields its error entry.  Third conjunct: the concrete 5-statement script
whose third statement fails gives `total=5, successful=4, failed=1` and the
single error entry with index 3 — statements 4 and 5 still executed. -/
theorem execute_setup_failure_isolation :
    (∀ (c : Client) (stmts : List (List Char)),
      execute_setup c stmts
        = ⟨stmts.length, specSucc c stmts 1, specFail c stmts 1,
           specErrors c stmts 1⟩) ∧
    (∀ (c : Client) (stmts : List (List Char)) (i : Nat) (h : i < stmts.length)
        (m : List Char),
      isDisplayOnly (stmts.get ⟨i, h⟩) = false →
      outcomeOf c (i + 1) (stmts.get ⟨i, h⟩) = ExecResult.err m →
      (⟨i + 1, preview (stmts.get ⟨i, h⟩), m⟩ : ErrEntry)
        ∈ (execute_setup c stmts).errors) ∧
    (execute_setup
        ⟨fun _ => ExecResult.ok 0,
         fun i => if i = 3 then ExecResult.err "boom".data else ExecResult.ok 0⟩
        ["CREATE TABLE t1 (a INT)".data, "CREATE TABLE t2 (a INT)".data,
         "CREATE TABLE t3 (a INT)".data, "CREATE TABLE t4 (a INT)".data,
         "CREATE TABLE t5 (a INT)".data]
      = ⟨5, 4, 1, [⟨3, "CREATE TABLE t3 (a INT)".data, "boom".data⟩]⟩) := by
  refine ⟨?_, ?_, by decide⟩
  · intro c stmts
    unfold execute_setup
    rw [execute_setup_core_spec]
  · intro c stmts i h m hd ho
    unfold execute_setup
    rw [execute_setup_core_spec]
    show _ ∈ specErrors c stmts 1
    have ho' : outcomeOf c (1 + i) (stmts.get ⟨i, h⟩) = ExecResult.err m := by
      rw [Nat.add_comm]
      exact ho
    have := specErrors_mem c stmts 1 i h m hd ho'
    simpa [Nat.add_comm] using this

/-- Witness for C2's isolation conjunct at a concrete one-statement run. -/
theorem execute_setup_failure_isolation_witness :
    (isDisplayOnly "DROP TABLE t".data = false) ∧
    ((⟨1, "DROP TABLE t".data, "e".data⟩ : ErrEntry)
      ∈ (execute_setup ⟨fun _ => ExecResult.ok 0, fun _ => ExecResult.err "e".data⟩
          ["DROP TABLE t".data]).errors) :=
  ⟨by decide,
   execute_setup_failure_isolation.2.1
     ⟨fun _ => ExecResult.ok 0, fun _ => ExecResult.err "e".data⟩
     ["DROP TABLE t".data] 0 (by decide) "e".data (by decide) (by decide)⟩

/-- Claim C4 (amended): a statement is display-only exactly when its
stripped text starts (case-insensitively) with `SELECT` and its text
contains `LIMIT`; such a statement is executed (sent to the client), never
contributes an error entry, and is counted neither as success nor failure
(the tallies range over non-display statements only); display-only implies
`Query` classification.  The unamended claim — every `Query`-classified
statement containing `LIMIT` is display-only — fails on `SHOW ... LIMIT`
statements (see the counterexample). -/
theorem display_only_absorbed :
    ∀ (c : Client) (stmts : List (List Char)) (i : Nat) (h : i < stmts.length),
      isDisplayOnly (stmts.get ⟨i, h⟩) = true →
      ((i + 1, stmts.get ⟨i, h⟩) ∈ (execute_setup_core c stmts).calls ∧
       (∀ e ∈ (execute_setup c stmts).errors, e.statement_number ≠ i + 1) ∧
       (execute_setup c stmts).successful + (execute_setup c stmts).failed
         = (stmts.filter (fun s => !isDisplayOnly s)).length ∧
       classify (stmts.get ⟨i, h⟩) = StmtClass.query) := by
  intro c stmts i h hd
  refine ⟨?_, ?_, ?_, ?_⟩
  · rw [execute_setup_core_spec]
    show _ ∈ callsSpec stmts 1
    have := callsSpec_mem stmts 1 i h
    simpa [Nat.add_comm] using this
  · intro e he
    unfold execute_setup at he
    rw [execute_setup_core_spec] at he
    have he' : e ∈ specErrors c stmts 1 := he
    obtain ⟨j, hj, hnum, hdisp⟩ := specErrors_number c stmts 1 e he'
    intro heq
    rw [heq] at hnum
    have hji : j = i := by omega
    subst hji
    have hsame : stmts.get ⟨j, hj⟩ = stmts.get ⟨j, h⟩ := rfl
    rw [hsame, hd] at hdisp
    cases hdisp
  · unfold execute_setup
    rw [execute_setup_core_spec]
    show specSucc c stmts 1 + specFail c stmts 1 = _
    exact specSucc_add_specFail c stmts 1
  · unfold isDisplayOnly at hd
    rw [Bool.and_eq_true] at hd
    unfold classify
    show (if (isPref "SELECT".data (upper (trim (stmts.get ⟨i, h⟩)))
            || isPref "SHOW".data (upper (trim (stmts.get ⟨i, h⟩)))) = true
          then StmtClass.query else StmtClass.update) = StmtClass.query
    rw [hd.1]
    rfl

/-- Counterexample for C4 as stated: `SHOW TABLES LIMIT 5` is classified
`Query` and contains the limiting clause, yet its failure is counted
(`failed = 1`), so it is not treated as display-only. -/
theorem display_only_show_limit_cex :
    classify "SHOW TABLES LIMIT 5".data = StmtClass.query ∧
    containsSub "LIMIT".data (upper "SHOW TABLES LIMIT 5".data) = true ∧
    (execute_setup ⟨fun _ => ExecResult.err "boom".data, fun _ => ExecResult.ok 0⟩
        ["SHOW TABLES LIMIT 5".data]).failed = 1 := by
  decide

/-- Witness for C4's amended statement at a concrete failing display query. -/
theorem display_only_absorbed_witness :
    isDisplayOnly "SELECT 1 LIMIT 1".data = true ∧
    ((1, "SELECT 1 LIMIT 1".data)
      ∈ (execute_setup_core ⟨fun _ => ExecResult.err "x".data, fun _ => ExecResult.ok 0⟩
          ["SELECT 1 LIMIT 1".data]).calls) :=
  ⟨by decide,
   (display_only_absorbed ⟨fun _ => ExecResult.err "x".data, fun _ => ExecResult.ok 0⟩
     ["SELECT 1 LIMIT 1".data] 0 (by decide) (by decide)).1⟩

/-- Claim C7 (amended): when the script file path does not resolve, the run
fails with `scriptNotFound` before any statement is executed, and the
connection is closed before the error propagates; however the connection is
attempted — and must succeed — *before* the script path is checked, so the
failure does not occur "before any connection is required or attempted" as
originally claimed (see the counterexample). -/
theorem script_not_found_after_connect :
    ∀ env : SetupEnv, env.connectOk = true → env.scriptExists = false →
      execute_setup_full env
        = (Except.error RunError.scriptNotFound,
           [Ev.connect, Ev.readScript, Ev.close]) := by
  intro env h1 h2
  unfold execute_setup_full
  rw [h1, h2]
  simp

/-- Counterexample for C7 as stated: with a connectable client and a
missing script, the run does end in `scriptNotFound`, but the event trace
contains the connection attempt before it. -/
theorem script_not_found_connect_cex :
    (execute_setup_full
        ⟨true, false, [], ⟨fun _ => ExecResult.ok 0, fun _ => ExecResult.ok 0⟩⟩).1
      = Except.error RunError.scriptNotFound ∧
    Ev.connect ∈ (execute_setup_full
        ⟨true, false, [], ⟨fun _ => ExecResult.ok 0, fun _ => ExecResult.ok 0⟩⟩).2 := by
  constructor
  · rfl
  · decide

/-- Witness for C7's amended statement at a concrete environment. -/
theorem script_not_found_after_connect_witness :
    execute_setup_full
        ⟨true, false, [], ⟨fun _ => ExecResult.ok 0, fun _ => ExecResult.ok 0⟩⟩
      = (Except.error RunError.scriptNotFound,
         [Ev.connect, Ev.readScript, Ev.close]) :=
  script_not_found_after_connect
    ⟨true, false, [], ⟨fun _ => ExecResult.ok 0, fun _ => ExecResult.ok 0⟩⟩ rfl rfl

/-- Claim C8 (amended): each verification category is computed from its own
catalog listing and count queries only, so a failure in one category never
blocks the next; db/schema listing failures are recorded as `false` for
that step only.  Within the tables (and views) category, however, a raising
row-count query aborts the remaining names of that same category — the
entries recorded so far are kept and later names get no recorded result
(see the counterexample), contrary to the original "that step only"
wording. -/
theorem verify_category_isolation :
    ∀ vc : VerifyClient,
      verify_setup vc
        = ⟨catalogHas vc.showDatabases "FEAT_DB".data,
           catalogHas vc.showSchemas "FEAT_SCHEMA".data,
           (categoryResult vc.showTables vc.countOf tablesToCheck).1,
           (categoryResult vc.showViews vc.countOf viewsToCheck).1,
           (categoryResult vc.showTables vc.countOf tablesToCheck).2
             ++ (categoryResult vc.showViews vc.countOf viewsToCheck).2⟩ := by
  intro vc
  unfold verify_setup catalogHas categoryResult
  cases vc.showDatabases <;> cases vc.showSchemas <;>
    cases vc.showTables <;> cases vc.showViews <;>
      simp [tableLoop_eq_checkCategory, viewLoop_eq_checkCategory]

/-- Counterexample for C8 as stated: the catalog lists all three tables,
but the count query for the first one raises; the remaining two table
checks never run (no recorded result for them), while the views category
still proceeds in full. -/
theorem verify_count_failure_cex :
    (verify_setup
        ⟨Except.ok ["FEAT_DB".data], Except.ok ["FEAT_SCHEMA".data],
         Except.ok ["customer_transactions".data, "tx_cleaned".data,
                    "feature_store".data],
         Except.ok ["customer_agg_30d".data, "latest_features".data],
         fun n => if n = "customer_transactions".data
                  then Except.error "boom".data else Except.ok [5]⟩).tables
      = [("customer_transactions".data, true)] ∧
    (verify_setup
        ⟨Except.ok ["FEAT_DB".data], Except.ok ["FEAT_SCHEMA".data],
         Except.ok ["customer_transactions".data, "tx_cleaned".data,
                    "feature_store".data],
         Except.ok ["customer_agg_30d".data, "latest_features".data],
         fun n => if n = "customer_transactions".data
                  then Except.error "boom".data else Except.ok [5]⟩).views
      = [("customer_agg_30d".data, true), ("latest_features".data, true)] := by
  decide
